import Mathlib

/-!
Verification of the STREAM online authenticated-encryption construction
(`src/stream.rs` of miscreant-rs), as a shallow embedding in Lean 4.

Modelling conventions:
* Bytes are `Nat` (values kept below 256 by construction where it matters);
  byte strings are `List Nat`.
* The underlying AEAD primitive is an external collaborator in the source
  (the `Aead` trait); it is modelled as a structure `Aead` holding the
  `encrypt` / `decrypt` functions of an already-keyed capability
  (`A::new(key)` is deterministic, so "constructed from the same key" is
  modelled as "holding the same capability value").  The properties the
  construction needs from it are stated as explicit propositions
  (`AeadRoundTrip`, `AeadNonceStrict`).
* Rust panics (wrong nonce-size at construction, `checked_add` counter
  overflow) are modelled as `Option`: `none` is a panic.  The recoverable
  authentication `Error` of `decrypt` is modelled as `Except Unit`.
* `&mut self` methods become state-passing functions returning the updated
  object; `self`-consuming methods (`finish`, `encrypt_last`, ...) return
  no updated object, mirroring Rust's move-based consumption.
-/

/-- `NONCE_SIZE` from `stream.rs`: size of the STREAM nonce prefix in bytes. -/
def NONCE_SIZE : Nat := 8

/-- `LAST_BLOCK_FLAG` from `stream.rs`: byte flag marking the last block. -/
def LAST_BLOCK_FLAG : Nat := 1

/-- `u32::to_be_bytes`: big-endian 4-byte encoding of a 32-bit counter. -/
def be32 (n : Nat) : List Nat :=
  [n / 2 ^ 24 % 256, n / 2 ^ 16 % 256, n / 2 ^ 8 % 256, n % 256]

/-- `NonceEncoder32` from `stream.rs`: the 13-byte STREAM nonce value
(`value : StreamNonce = [u8; NONCE_SIZE + 4 + 1]`) plus a 32-bit counter. -/
structure NonceEncoder32 where
  value : List Nat
  counter : Nat
deriving Repr

/-- `NonceEncoder32::new`: checks the nonce-size (panics — `none` — when the
slice is not exactly `NONCE_SIZE` bytes), then starts from the all-zero
13-byte default value with the first 8 bytes overwritten by the supplied
bytes (`copy_from_slice`), counter 0.  With the length check passed, the
resulting array is the 8 supplied bytes followed by 5 zero bytes. -/
def NonceEncoder32.new (pfx : List Nat) : Option NonceEncoder32 :=
  if pfx.length = NONCE_SIZE then
    some { value := pfx ++ List.replicate 5 0, counter := 0 }
  else
    none

/-- `NonceEncoder32::increment`: `counter.checked_add(1)` — `none` (panic
"STREAM nonce counter overflowed") when the counter is at `u32::MAX` —
then `value[8..12].copy_from_slice(&counter.to_be_bytes())`. -/
def NonceEncoder32.increment (s : NonceEncoder32) : Option NonceEncoder32 :=
  if s.counter + 1 < 2 ^ 32 then
    some { value := s.value.take NONCE_SIZE ++ be32 (s.counter + 1)
                      ++ s.value.drop (NONCE_SIZE + 4),
           counter := s.counter + 1 }
  else
    none

/-- `NonceEncoder32::as_slice`: borrow the current 13-byte value. -/
def NonceEncoder32.as_slice (s : NonceEncoder32) : List Nat := s.value

/-- `NonceEncoder32::finish`: consumes the encoder, setting the last byte of
the 13-byte value (index `NONCE_SIZE + 4`) to `LAST_BLOCK_FLAG` and
returning the value.  No encoder state survives the call. -/
def NonceEncoder32.finish (s : NonceEncoder32) : List Nat :=
  s.value.set (NONCE_SIZE + 4) LAST_BLOCK_FLAG

/-- Iterated `increment`: the sequencer state after `k` further successful
"next" advances (`none` as soon as one increment panics). -/
def NonceEncoder32.advanceN (s : NonceEncoder32) : Nat → Option NonceEncoder32
  | 0 => some s
  | k + 1 => s.increment.bind fun s' => s'.advanceN k

/-- The external AEAD capability (the `Aead` trait object after `A::new(key)`):
`encrypt nonce ad plaintext` and the fallible `decrypt nonce ad ciphertext`. -/
structure Aead where
  encrypt : List Nat → List Nat → List Nat → List Nat
  decrypt : List Nat → List Nat → List Nat → Option (List Nat)

/-- AEAD contract: decryption inverts encryption under the same nonce and
associated data. -/
def AeadRoundTrip (a : Aead) : Prop :=
  ∀ n ad pt, a.decrypt n ad (a.encrypt n ad pt) = some pt

/-- AEAD contract: decryption rejects a ciphertext under any nonce of the
same length other than the one it was encrypted under. -/
def AeadNonceStrict (a : Aead) : Prop :=
  ∀ n n' ad pt, n.length = n'.length → n ≠ n' →
    a.decrypt n' ad (a.encrypt n ad pt) = none

/-- `Encryptor<A>` from `stream.rs`: an AEAD capability plus a nonce encoder. -/
structure Encryptor where
  alg : Aead
  nonce : NonceEncoder32

/-- `Encryptor::new`: `A::new(key)` is the supplied capability; the nonce
encoder construction may panic on a wrong-sized nonce. -/
def Encryptor.new (a : Aead) (pfx : List Nat) : Option Encryptor :=
  (NonceEncoder32.new pfx).map fun s => { alg := a, nonce := s }

/-- `Encryptor::encrypt_next`: encrypt under the current nonce, then
increment; the increment may panic (counter overflow), in which case the
allocated ciphertext never reaches the caller. -/
def Encryptor.encrypt_next (e : Encryptor) (ad pt : List Nat) :
    Option (List Nat × Encryptor) :=
  let ct := e.alg.encrypt e.nonce.as_slice ad pt
  e.nonce.increment.map fun s => (ct, { e with nonce := s })

/-- `Encryptor::encrypt_next_in_place`: the buffer is overwritten with the
ciphertext first (`encrypt_in_place`), and only then is the counter
incremented; the first component is the buffer's final content, the second
is `none` exactly when the increment panics. -/
def Encryptor.encrypt_next_in_place (e : Encryptor) (ad buffer : List Nat) :
    List Nat × Option Encryptor :=
  (e.alg.encrypt e.nonce.as_slice ad buffer,
   e.nonce.increment.map fun s => { e with nonce := s })

/-- `Encryptor::encrypt_last`: consumes the encryptor, encrypting under the
finalized nonce (`self.nonce.finish()`). -/
def Encryptor.encrypt_last (e : Encryptor) (ad pt : List Nat) : List Nat :=
  e.alg.encrypt e.nonce.finish ad pt

/-- `Decryptor<A>` from `stream.rs`: an AEAD capability plus a nonce encoder. -/
structure Decryptor where
  alg : Aead
  nonce : NonceEncoder32

/-- `Decryptor::new`: mirror of `Encryptor::new`. -/
def Decryptor.new (a : Aead) (pfx : List Nat) : Option Decryptor :=
  (NonceEncoder32.new pfx).map fun s => { alg := a, nonce := s }

/-- `Decryptor::decrypt_next`: decrypt under the current nonce; on
authentication failure the `?` operator returns the error before the
increment runs, so the decryptor is returned unchanged
(`some (d, Except.error ())`); on success the counter is incremented,
which may panic (`none`). -/
def Decryptor.decrypt_next (d : Decryptor) (ad ct : List Nat) :
    Option (Decryptor × Except Unit (List Nat)) :=
  match d.alg.decrypt d.nonce.as_slice ad ct with
  | none => some (d, Except.error ())
  | some pt => d.nonce.increment.map fun s => ({ d with nonce := s }, Except.ok pt)

/-- `Decryptor::decrypt_last`: consumes the decryptor, decrypting under the
finalized nonce; `none` is the authentication `Error`. -/
def Decryptor.decrypt_last (d : Decryptor) (ad ct : List Nat) :
    Option (List Nat) :=
  d.alg.decrypt d.nonce.finish ad ct

/-- Driver loop: encrypt a list of `(associated_data, plaintext)` messages by
successive `encrypt_next` calls, collecting the ciphertexts and the final
encryptor state. -/
def encryptSeq (e : Encryptor) : List (List Nat × List Nat) →
    Option (List (List Nat) × Encryptor)
  | [] => some ([], e)
  | m :: rest =>
    (e.encrypt_next m.1 m.2).bind fun p =>
      (encryptSeq p.2 rest).map fun q => (p.1 :: q.1, q.2)

/-- Driver loop: decrypt a list of `(associated_data, ciphertext)` messages by
successive `decrypt_next` calls; `none` as soon as one call fails
(authentication failure or counter overflow). -/
def decryptSeq (d : Decryptor) : List (List Nat × List Nat) →
    Option (List (List Nat) × Decryptor)
  | [] => some ([], d)
  | m :: rest =>
    match d.decrypt_next m.1 m.2 with
    | some (d', Except.ok pt) =>
      (decryptSeq d' rest).map fun q => (pt :: q.1, q.2)
    | _ => none

/-- A concrete AEAD capability used to instantiate the contract hypotheses in
witnesses: the ciphertext records the nonce and associated data in clear,
decryption checks them and strips them. -/
def refAead : Aead where
  encrypt := fun n ad pt => n ++ ad ++ pt
  decrypt := fun n ad ct =>
    if ct.take (n.length + ad.length) = n ++ ad then
      some (ct.drop (n.length + ad.length))
    else
      none

/-! ### Helper lemmas -/

/-- Setting an element past the first list of an append sets it in the second. -/
theorem set_append_add {α : Type} (l1 l2 : List α) (n : Nat) (x : α) :
    (l1 ++ l2).set (l1.length + n) x = l1 ++ l2.set n x := by
  induction l1 with
  | nil => simp
  | cons a t ih => simp [Nat.succ_add, ih]

/-- The reference AEAD satisfies the round-trip contract. -/
theorem refAead_roundTrip : AeadRoundTrip refAead := by
  intro n ad pt
  have h1 : (n ++ ad ++ pt).take (n.length + ad.length) = n ++ ad :=
    List.take_left' (by simp)
  have h2 : (n ++ ad ++ pt).drop (n.length + ad.length) = pt :=
    List.drop_left' (by simp)
  simp only [refAead]
  rw [h1, if_pos rfl, h2]

/-- The reference AEAD rejects decryption under a different same-length nonce. -/
theorem refAead_nonceStrict : AeadNonceStrict refAead := by
  intro n n' ad pt hlen hne
  have h1 : (n ++ ad ++ pt).take (n'.length + ad.length) = n ++ ad :=
    List.take_left' (by simp [hlen])
  have h2 : ¬ (n ++ ad = n' ++ ad) := fun h => hne (List.append_cancel_right h)
  simp only [refAead]
  rw [h1, if_neg h2]

/-- Unfolding `NonceEncoder32.new` on a successful construction. -/
theorem new_some {pfx : List Nat} {s : NonceEncoder32}
    (h : NonceEncoder32.new pfx = some s) :
    pfx.length = NONCE_SIZE ∧ s.value = pfx ++ be32 0 ++ [0] ∧ s.counter = 0 := by
  unfold NonceEncoder32.new at h
  split at h
  · next hl =>
    refine ⟨hl, ?_, ?_⟩
    · cases h
      simp [be32, List.replicate]
    · cases h
      rfl
  · exact absurd h (by simp)

/-- `increment` on a state whose value is in canonical form: the counter
field is rewritten, the first 8 bytes and the final flag byte are kept. -/
theorem increment_canonical {pfx : List Nat} {s : NonceEncoder32}
    (hl : pfx.length = NONCE_SIZE) (hv : s.value = pfx ++ be32 s.counter ++ [0])
    {s' : NonceEncoder32} (h : s.increment = some s') :
    s'.value = pfx ++ be32 s'.counter ++ [0] ∧ s'.counter = s.counter + 1 := by
  unfold NonceEncoder32.increment at h
  split at h
  · cases h
    have hlb : (be32 s.counter).length = 4 := by simp [be32]
    constructor
    · show s.value.take NONCE_SIZE ++ be32 (s.counter + 1) ++ s.value.drop (NONCE_SIZE + 4)
        = pfx ++ be32 (s.counter + 1) ++ [0]
      have ht : s.value.take NONCE_SIZE = pfx := by
        rw [hv, List.append_assoc, List.take_left' hl]
      have hd : s.value.drop (NONCE_SIZE + 4) = [0] := by
        rw [hv, List.drop_left' (by simp [hl, hlb, NONCE_SIZE])]
      rw [ht, hd]
    · rfl
  · exact absurd h (by simp)

/-- Canonical form is preserved by any number of advances, and the counter
counts them. -/
theorem advanceN_canonical {pfx : List Nat} (hl : pfx.length = NONCE_SIZE) :
    ∀ (k : Nat) (s sk : NonceEncoder32),
    s.value = pfx ++ be32 s.counter ++ [0] → s.advanceN k = some sk →
    sk.value = pfx ++ be32 sk.counter ++ [0] ∧ sk.counter = s.counter + k := by
  intro k
  induction k with
  | zero =>
    intro s sk hv h
    cases h
    exact ⟨hv, rfl⟩
  | succ k ih =>
    intro s sk hv h
    unfold NonceEncoder32.advanceN at h
    rcases Option.bind_eq_some.mp h with ⟨s', hs', hrest⟩
    rcases increment_canonical hl hv hs' with ⟨hv', hc'⟩
    rcases ih s' sk hv' hrest with ⟨hvk, hck⟩
    exact ⟨hvk, by omega⟩

/-- `finish` on a canonical-form value flips exactly the final byte. -/
theorem finish_canonical {pfx : List Nat} {s : NonceEncoder32}
    (hl : pfx.length = NONCE_SIZE) (hv : s.value = pfx ++ be32 s.counter ++ [0]) :
    s.finish = pfx ++ be32 s.counter ++ [1] := by
  unfold NonceEncoder32.finish
  rw [hv]
  have hlen : (pfx ++ be32 s.counter).length = NONCE_SIZE + 4 := by
    simp [hl, be32, NONCE_SIZE]
  calc (pfx ++ be32 s.counter ++ [0]).set (NONCE_SIZE + 4) LAST_BLOCK_FLAG
      = (pfx ++ be32 s.counter ++ [0]).set ((pfx ++ be32 s.counter).length + 0)
          LAST_BLOCK_FLAG := by rw [hlen]
    _ = pfx ++ be32 s.counter ++ [0].set 0 LAST_BLOCK_FLAG := set_append_add ..
    _ = pfx ++ be32 s.counter ++ [1] := rfl

/-- Peeling the last advance off an iterated advance. -/
theorem advanceN_succ_last (s : NonceEncoder32) (k : Nat) :
    s.advanceN (k + 1) = (s.advanceN k).bind NonceEncoder32.increment := by
  induction k generalizing s with
  | zero => simp [NonceEncoder32.advanceN]
  | succ k ih =>
    show s.increment.bind (fun s' => s'.advanceN (k + 1))
      = (s.increment.bind fun s' => s'.advanceN k).bind NonceEncoder32.increment
    cases hs : s.increment with
    | none => rfl
    | some s' => simpa using ih s'

/-- `getD` at an index past the first list of an append reads the second. -/
theorem getD_append_right {α : Type} (l1 l2 : List α) (n : Nat) (d : α)
    (h : l1.length ≤ n) : (l1 ++ l2).getD n d = l2.getD (n - l1.length) d := by
  simp [List.getD_eq_getElem?_getD, List.getElem?_append_right h]

/-- `getD` at the index just set reads the new element. -/
theorem getD_set_self {α : Type} (l : List α) (i : Nat) (x d : α)
    (h : i < l.length) : (l.set i x).getD i d = x := by
  simp [List.getD_eq_getElem?_getD, List.getElem?_set_eq_of_lt _ h]

/-- `decrypt_next` on a ciphertext the AEAD accepts at the current nonce:
the plaintext is returned and the sequencer advances. -/
theorem decrypt_next_ok (d : Decryptor) (ad ct pt : List Nat)
    (s' : NonceEncoder32)
    (h : d.alg.decrypt d.nonce.as_slice ad ct = some pt)
    (hs : d.nonce.increment = some s') :
    d.decrypt_next ad ct = some ({ d with nonce := s' }, Except.ok pt) := by
  unfold Decryptor.decrypt_next
  simp only [h, hs, Option.map_some']

/-- Interior round trip: decrypting, in order and with the same associated
data, the ciphertexts produced by a run of `encrypt_next` calls from a shared
capability and nonce state recovers every plaintext and ends in the matching
state. -/
theorem roundtrip_seq (a : Aead) (h : AeadRoundTrip a) :
    ∀ (msgs : List (List Nat × List Nat)) (s : NonceEncoder32)
      (cts : List (List Nat)) (e1 : Encryptor),
    encryptSeq ⟨a, s⟩ msgs = some (cts, e1) →
    e1.alg = a ∧
    decryptSeq ⟨a, s⟩ ((msgs.map Prod.fst).zip cts)
      = some (msgs.map Prod.snd, ⟨a, e1.nonce⟩) := by
  intro msgs
  induction msgs with
  | nil =>
    intro s cts e1 henc
    simp only [encryptSeq, Option.some_inj] at henc
    rw [Prod.mk.injEq] at henc
    obtain ⟨hcts, he1⟩ := henc
    subst hcts
    subst he1
    exact ⟨rfl, rfl⟩
  | cons m rest ih =>
    intro s cts e1 henc
    simp only [encryptSeq] at henc
    rcases Option.bind_eq_some.mp henc with ⟨p, hp, hq⟩
    simp only [Encryptor.encrypt_next] at hp
    rcases Option.map_eq_some'.mp hp with ⟨s', hs', hps⟩
    rcases Option.map_eq_some'.mp hq with ⟨q, hq1, hq2⟩
    obtain ⟨cts', e1'⟩ := q
    rw [Prod.mk.injEq] at hq2
    obtain ⟨hcts, he1⟩ := hq2
    subst hcts
    subst he1
    rw [← hps] at hq1
    rcases ih s' cts' e1' hq1 with ⟨halg, hdec⟩
    refine ⟨halg, ?_⟩
    simp only [List.map_cons, List.zip_cons_cons, decryptSeq]
    rw [← hps]
    have hd : Decryptor.decrypt_next ⟨a, s⟩ m.1 (a.encrypt s.as_slice m.1 m.2)
        = some (⟨a, s'⟩, Except.ok m.2) :=
      decrypt_next_ok ⟨a, s⟩ m.1 _ m.2 s' (h s.as_slice m.1 m.2) hs'
    rw [hd]
    show Option.map (fun q => (m.2 :: q.1, q.2))
      (decryptSeq ⟨a, s'⟩ (List.zipWith Prod.mk (List.map Prod.fst rest) cts'))
      = some (m.2 :: List.map Prod.snd rest, ⟨a, e1'.nonce⟩)
    have hz : List.zipWith Prod.mk (List.map Prod.fst rest) cts'
        = (List.map Prod.fst rest).zip cts' := rfl
    rw [hz, hdec, Option.map_some']

/-- C1: round trip.  For every AEAD capability satisfying the round-trip
contract (one capability value stands for `A::new(key)` at a fixed key),
every 8-byte nonce prefix, and every sequence of (associated_data,
plaintext) messages encrypted by `encrypt_next` calls followed by one
`encrypt_last`, a `Decryptor` built from the same capability and prefix and
driven with the resulting ciphertexts in order — `decrypt_next` for each
interior message, `decrypt_last` for the final one, with the same associated
data — succeeds on every call and returns exactly the original plaintexts. -/
theorem stream_round_trip (a : Aead) (h : AeadRoundTrip a) (pfx : List Nat)
    (e : Encryptor) (d : Decryptor) (msgs : List (List Nat × List Nat))
    (adL ptL : List Nat) (cts : List (List Nat)) (e1 : Encryptor)
    (he : Encryptor.new a pfx = some e) (hd : Decryptor.new a pfx = some d)
    (henc : encryptSeq e msgs = some (cts, e1)) :
    decryptSeq d ((msgs.map Prod.fst).zip cts)
      = some (msgs.map Prod.snd, ⟨a, e1.nonce⟩)
    ∧ Decryptor.decrypt_last ⟨a, e1.nonce⟩ adL (Encryptor.encrypt_last e1 adL ptL)
      = some ptL := by
  rcases Option.map_eq_some'.mp he with ⟨s0, hs0, he'⟩
  rcases Option.map_eq_some'.mp hd with ⟨s0', hs0', hd'⟩
  rw [hs0, Option.some_inj] at hs0'
  subst hs0'
  rw [← he'] at henc
  rcases roundtrip_seq a h msgs s0 cts e1 henc with ⟨halg, hdec⟩
  constructor
  · rw [← hd']
    exact hdec
  · show Aead.decrypt a (NonceEncoder32.finish e1.nonce) adL
      (Aead.encrypt e1.alg (NonceEncoder32.finish e1.nonce) adL ptL) = some ptL
    rw [halg]
    exact h e1.nonce.finish adL ptL

/-- C2: nonce monotonicity.  After `k` completed "next" advances on a freshly
constructed sequencer, the nonce the next "next" operation passes to the
AEAD (`as_slice`) is `prefix ++ be32 k ++ [0]`, and the nonce a "last"
operation at that point passes (`finish`) is `prefix ++ be32 k ++ [1]`. -/
theorem nonce_progression (pfx : List Nat) (s0 sk : NonceEncoder32) (k : Nat)
    (h0 : NonceEncoder32.new pfx = some s0) (hk : s0.advanceN k = some sk) :
    sk.as_slice = pfx ++ be32 k ++ [0] ∧ sk.finish = pfx ++ be32 k ++ [1] := by
  rcases new_some h0 with ⟨hl, hv, hc⟩
  have hv0 : s0.value = pfx ++ be32 s0.counter ++ [0] := by rw [hc]; exact hv
  rcases advanceN_canonical hl k s0 sk hv0 hk with ⟨hvk, hck⟩
  have hk' : sk.counter = k := by rw [hck, hc, Nat.zero_add]
  constructor
  · show sk.value = pfx ++ be32 k ++ [0]
    rw [hvk, hk']
  · rw [finish_canonical hl hvk, hk']

/-- C4: counter overflow.  An increment at counter `2^32 − 1` fails fatally
(no wrap to 0), and a freshly constructed sequencer fails fatally on its
`2^32`-th advance; at most `2^32 − 1` advances can ever complete. -/
theorem counter_overflow_guard :
    (∀ s : NonceEncoder32, s.counter = 2 ^ 32 - 1 → s.increment = none) ∧
    (∀ pfx s0, NonceEncoder32.new pfx = some s0 →
      s0.advanceN (2 ^ 32) = none) := by
  have h1 : ∀ s : NonceEncoder32, s.counter = 2 ^ 32 - 1 → s.increment = none := by
    intro s hs
    unfold NonceEncoder32.increment
    rw [hs, if_neg (by norm_num)]
  refine ⟨h1, ?_⟩
  intro pfx s0 h0
  rcases new_some h0 with ⟨hl, hv, hc⟩
  have hv0 : s0.value = pfx ++ be32 s0.counter ++ [0] := by rw [hc]; exact hv
  have hsplit : (2 : Nat) ^ 32 = (2 ^ 32 - 1) + 1 := by norm_num
  rw [hsplit, advanceN_succ_last]
  cases hk : s0.advanceN (2 ^ 32 - 1) with
  | none => rfl
  | some sk =>
    rcases advanceN_canonical hl _ s0 sk hv0 hk with ⟨_, hck⟩
    have : sk.counter = 2 ^ 32 - 1 := by rw [hck, hc, Nat.zero_add]
    simp [h1 sk this]

/-- C7: construction checks.  Constructing a sequencer (and hence an
Encryptor or Decryptor) fails fatally exactly when the supplied nonce
prefix is not 8 bytes long; with an 8-byte prefix it succeeds with counter 0,
terminal-flag byte 0, and the prefix in place. -/
theorem construction_length_check (a : Aead) (pfx : List Nat) :
    ((NonceEncoder32.new pfx).isSome ↔ pfx.length = NONCE_SIZE) ∧
    ((Encryptor.new a pfx).isSome ↔ pfx.length = NONCE_SIZE) ∧
    ((Decryptor.new a pfx).isSome ↔ pfx.length = NONCE_SIZE) ∧
    (∀ s, NonceEncoder32.new pfx = some s →
      s.counter = 0 ∧ s.value.getD (NONCE_SIZE + 4) 0 = 0 ∧
      s.value.take NONCE_SIZE = pfx) := by
  have hbase : (NonceEncoder32.new pfx).isSome ↔ pfx.length = NONCE_SIZE := by
    unfold NonceEncoder32.new
    by_cases hl : pfx.length = NONCE_SIZE
    · simp [hl]
    · simp [hl]
  refine ⟨hbase, ?_, ?_, ?_⟩
  · unfold Encryptor.new
    rw [Option.isSome_map']
    exact hbase
  · unfold Decryptor.new
    rw [Option.isSome_map']
    exact hbase
  · intro s hs
    rcases new_some hs with ⟨hl, hv, hc⟩
    refine ⟨hc, ?_, ?_⟩
    · rw [hv, getD_append_right _ _ _ _ (by simp [hl, be32, NONCE_SIZE])]
      simp [hl, be32, NONCE_SIZE]
    · rw [hv, List.append_assoc]
      exact List.take_left' hl

/-- C8: frame condition on the prefix.  On any sequence of advances after
construction, the first 8 bytes of the 13-byte nonce value stay equal to the
construction prefix; a further increment rewrites only the counter field
(bytes 8..12), and finalization rewrites only the terminal byte (index 12). -/
theorem pfx_immutable (pfx : List Nat) (s0 sk : NonceEncoder32) (k : Nat)
    (h0 : NonceEncoder32.new pfx = some s0) (hk : s0.advanceN k = some sk) :
    sk.value.take NONCE_SIZE = pfx ∧
    sk.finish.take NONCE_SIZE = pfx ∧
    (∀ s', sk.increment = some s' →
      s'.value.take NONCE_SIZE = sk.value.take NONCE_SIZE ∧
      s'.value.drop (NONCE_SIZE + 4) = sk.value.drop (NONCE_SIZE + 4)) ∧
    sk.finish.take (NONCE_SIZE + 4) = sk.value.take (NONCE_SIZE + 4) := by
  rcases new_some h0 with ⟨hl, hv, hc⟩
  have hv0 : s0.value = pfx ++ be32 s0.counter ++ [0] := by rw [hc]; exact hv
  rcases advanceN_canonical hl k s0 sk hv0 hk with ⟨hvk, _⟩
  have htake : sk.value.take NONCE_SIZE = pfx := by
    rw [hvk, List.append_assoc]
    exact List.take_left' hl
  have hfin : sk.finish = pfx ++ be32 sk.counter ++ [1] := finish_canonical hl hvk
  have hlen12 : (pfx ++ be32 sk.counter).length = NONCE_SIZE + 4 := by
    simp [hl, be32, NONCE_SIZE]
  refine ⟨htake, ?_, ?_, ?_⟩
  · rw [hfin, List.append_assoc]
    exact List.take_left' hl
  · intro s' hs'
    rcases increment_canonical hl hvk hs' with ⟨hv', _⟩
    constructor
    · rw [hv', List.append_assoc, List.take_left' hl, htake]
    · rw [hv', hvk]
      rw [List.drop_left' (by simp [hl, be32, NONCE_SIZE]),
        List.drop_left' (by simp [hl, be32, NONCE_SIZE])]
  · rw [hfin, hvk, List.take_left' hlen12, List.take_left' hlen12]

/-- C10: representation invariant.  In every state reachable by construction
and any number of increments, bytes 8..12 of the stored value are the
big-endian encoding of the counter, byte 12 is 0, and `as_slice` returns
exactly `prefix ++ be32 counter ++ [0]` (the counter equals the number of
advances, so this also holds immediately after construction). -/
theorem value_counter_sync (pfx : List Nat) (s0 sk : NonceEncoder32) (k : Nat)
    (h0 : NonceEncoder32.new pfx = some s0) (hk : s0.advanceN k = some sk) :
    sk.counter = k ∧
    (sk.value.drop NONCE_SIZE).take 4 = be32 sk.counter ∧
    sk.value.getD (NONCE_SIZE + 4) 0 = 0 ∧
    sk.as_slice = pfx ++ be32 sk.counter ++ [0] := by
  rcases new_some h0 with ⟨hl, hv, hc⟩
  have hv0 : s0.value = pfx ++ be32 s0.counter ++ [0] := by rw [hc]; exact hv
  rcases advanceN_canonical hl k s0 sk hv0 hk with ⟨hvk, hck⟩
  have hkc : sk.counter = k := by rw [hck, hc, Nat.zero_add]
  refine ⟨hkc, ?_, ?_, hvk⟩
  · rw [hvk, List.append_assoc, List.drop_left' hl]
    exact List.take_left' (by simp [be32])
  · rw [hvk, getD_append_right _ _ _ _ (by simp [hl, be32, NONCE_SIZE])]
    simp [hl, be32, NONCE_SIZE]

/-- C6: failure atomicity of `decrypt_next`.  When the AEAD rejects the
ciphertext, `decrypt_next` reports the typed error and returns the decryptor
exactly as it was (sequencer counter and 13-byte nonce untouched); whenever
an error is reported the state is unchanged; and the sequencer is advanced by
exactly one increment precisely on a successful call. -/
theorem decrypt_next_advance_iff (d : Decryptor) (ad ct : List Nat) :
    (d.alg.decrypt d.nonce.as_slice ad ct = none →
      Decryptor.decrypt_next d ad ct = some (d, Except.error ())) ∧
    (∀ d' r, Decryptor.decrypt_next d ad ct = some (d', Except.error r) →
      d' = d) ∧
    (∀ d' pt, Decryptor.decrypt_next d ad ct = some (d', Except.ok pt) →
      d.nonce.increment = some d'.nonce ∧ d'.alg = d.alg) := by
  refine ⟨?_, ?_, ?_⟩
  · intro h
    unfold Decryptor.decrypt_next
    rw [h]
  · intro d' r h
    unfold Decryptor.decrypt_next at h
    split at h
    · rw [Option.some_inj, Prod.mk.injEq] at h
      exact h.1.symm
    · rcases Option.map_eq_some'.mp h with ⟨s, _, heq⟩
      rw [Prod.mk.injEq] at heq
      exact absurd heq.2 (by simp)
  · intro d' pt h
    unfold Decryptor.decrypt_next at h
    split at h
    · rw [Option.some_inj, Prod.mk.injEq] at h
      exact absurd h.2 (by simp)
    · rcases Option.map_eq_some'.mp h with ⟨s, hs, heq⟩
      rw [Prod.mk.injEq] at heq
      obtain ⟨hd', _⟩ := heq
      subst hd'
      exact ⟨hs, rfl⟩

/-- C9: non-atomic overflow failure of `encrypt_next` at the counter ceiling.
With the counter at `2^32 − 1`, `encrypt_next_in_place` first overwrites the
caller's buffer with the ciphertext (encrypted under the current nonce,
counter `2^32 − 1`) and only then hits the fatal counter-overflow error; the
allocating variant likewise encrypts but aborts before returning. -/
theorem overflow_after_encrypt (e : Encryptor) (ad buf pt : List Nat)
    (h : e.nonce.counter = 2 ^ 32 - 1) :
    Encryptor.encrypt_next_in_place e ad buf
      = (e.alg.encrypt e.nonce.as_slice ad buf, none) ∧
    Encryptor.encrypt_next e ad pt = none := by
  have hi : e.nonce.increment = none := by
    unfold NonceEncoder32.increment
    rw [h, if_neg (by norm_num)]
  constructor
  · unfold Encryptor.encrypt_next_in_place
    rw [hi]
    rfl
  · unfold Encryptor.encrypt_next
    rw [hi]
    rfl

/-- C3: terminal binding.  Assuming the AEAD rejects decryption under any
(same-length) nonce other than the encryption nonce: a ciphertext produced by
`encrypt_next` (terminal byte 0 in the nonce) fails authentication in
`decrypt_last` (terminal byte 1), and a ciphertext produced by `encrypt_last`
fails authentication in `decrypt_next` at any position, returning the typed
error.  The byte-12-is-0 hypotheses hold in every reachable sequencer state
(see `value_counter_sync`). -/
theorem terminal_binding (a : Aead) (hns : AeadNonceStrict a)
    (se sd : NonceEncoder32) (ad pt : List Nat)
    (hle : se.value.length = NONCE_SIZE + 4 + 1)
    (hld : sd.value.length = NONCE_SIZE + 4 + 1)
    (hfe : se.value.getD (NONCE_SIZE + 4) 0 = 0)
    (hfd : sd.value.getD (NONCE_SIZE + 4) 0 = 0) :
    (∀ ct e', Encryptor.encrypt_next ⟨a, se⟩ ad pt = some (ct, e') →
      Decryptor.decrypt_last ⟨a, sd⟩ ad ct = none) ∧
    Decryptor.decrypt_next ⟨a, sd⟩ ad (Encryptor.encrypt_last ⟨a, se⟩ ad pt)
      = some (⟨a, sd⟩, Except.error ()) := by
  have hlt : NONCE_SIZE + 4 < NONCE_SIZE + 4 + 1 := by omega
  have hdf : sd.finish.getD (NONCE_SIZE + 4) 0 = LAST_BLOCK_FLAG :=
    getD_set_self _ _ _ _ (by rw [hld]; exact hlt)
  have hef : se.finish.getD (NONCE_SIZE + 4) 0 = LAST_BLOCK_FLAG :=
    getD_set_self _ _ _ _ (by rw [hle]; exact hlt)
  have hdflen : sd.finish.length = NONCE_SIZE + 4 + 1 := by
    unfold NonceEncoder32.finish
    rw [List.length_set]
    exact hld
  have heflen : se.finish.length = NONCE_SIZE + 4 + 1 := by
    unfold NonceEncoder32.finish
    rw [List.length_set]
    exact hle
  constructor
  · intro ct e' hct
    unfold Encryptor.encrypt_next at hct
    rcases Option.map_eq_some'.mp hct with ⟨s', _, heq⟩
    rw [Prod.mk.injEq] at heq
    obtain ⟨hcteq, _⟩ := heq
    subst hcteq
    have hne : se.value ≠ sd.finish := by
      intro hcontra
      rw [hcontra, hdf] at hfe
      exact absurd hfe (by simp [LAST_BLOCK_FLAG])
    exact hns se.value sd.finish ad pt (by rw [hle, hdflen]) hne
  · have hne : se.finish ≠ sd.value := by
      intro hcontra
      rw [← hcontra, hef] at hfd
      exact absurd hfd (by simp [LAST_BLOCK_FLAG])
    have hrej : a.decrypt sd.value ad (a.encrypt se.finish ad pt) = none :=
      hns se.finish sd.value ad pt (by rw [heflen, hld]) hne
    unfold Decryptor.decrypt_next Encryptor.encrypt_last
    rw [show (⟨a, sd⟩ : Decryptor).nonce.as_slice = sd.value from rfl]
    rw [show (⟨a, se⟩ : Encryptor).alg.encrypt (⟨a, se⟩ : Encryptor).nonce.finish ad pt
        = a.encrypt se.finish ad pt from rfl]
    rw [hrej]

/-- The lifecycle state of a STREAM object: an active `Encryptor`, an active
`Decryptor`, or consumed (the object was moved into a "last" call). -/
inductive StreamState where
  | activeEnc : Encryptor → StreamState
  | activeDec : Decryptor → StreamState
  | consumed : StreamState

/-- The operations the `stream.rs` API offers, as a transition relation.
"Next" operations take `&mut self` and keep the object active; "last"
operations take `self` by value, so the object is consumed and the Rust type
system offers no operation on it afterwards — hence no transition out of
`consumed`. -/
inductive StreamStep : StreamState → StreamState → Prop
  | encNext (e e' : Encryptor) (ad pt ct : List Nat) :
      e.encrypt_next ad pt = some (ct, e') →
      StreamStep (StreamState.activeEnc e) (StreamState.activeEnc e')
  | encNextInPlace (e e' : Encryptor) (ad buf buf' : List Nat) :
      e.encrypt_next_in_place ad buf = (buf', some e') →
      StreamStep (StreamState.activeEnc e) (StreamState.activeEnc e')
  | encLast (e : Encryptor) (ad pt : List Nat) :
      StreamStep (StreamState.activeEnc e) StreamState.consumed
  | decNext (d d' : Decryptor) (ad ct : List Nat) (r : Except Unit (List Nat)) :
      d.decrypt_next ad ct = some (d', r) →
      StreamStep (StreamState.activeDec d) (StreamState.activeDec d')
  | decLast (d : Decryptor) (ad ct : List Nat) :
      StreamStep (StreamState.activeDec d) StreamState.consumed

/-- C5: consumption.  Every operation the API offers starts from an active
(non-consumed) object: once a "last" operation has consumed an Encryptor or
Decryptor, no further "next" or "last" operation can be performed on it. -/
theorem consumed_no_further_ops (s s' : StreamState) (h : StreamStep s s') :
    s ≠ StreamState.consumed := by
  cases h <;> simp

/-- Witness for C1 at the reference AEAD, an all-zero 8-byte prefix, one
interior message `[7]` and final message `[9]` with empty associated data. -/
theorem stream_round_trip_witness :
    decryptSeq ⟨refAead, ⟨List.replicate 8 0 ++ List.replicate 5 0, 0⟩⟩
        [([], [0, 0, 0, 0, 0, 0, 0, 0, 0, 0, 0, 0, 0, 7])]
      = some ([[7]], ⟨refAead, ⟨[0, 0, 0, 0, 0, 0, 0, 0, 0, 0, 0, 1, 0], 1⟩⟩)
    ∧ Decryptor.decrypt_last ⟨refAead, ⟨[0, 0, 0, 0, 0, 0, 0, 0, 0, 0, 0, 1, 0], 1⟩⟩ []
        (Encryptor.encrypt_last ⟨refAead, ⟨[0, 0, 0, 0, 0, 0, 0, 0, 0, 0, 0, 1, 0], 1⟩⟩ [] [9])
      = some [9] :=
  stream_round_trip refAead refAead_roundTrip (List.replicate 8 0)
    ⟨refAead, ⟨List.replicate 8 0 ++ List.replicate 5 0, 0⟩⟩
    ⟨refAead, ⟨List.replicate 8 0 ++ List.replicate 5 0, 0⟩⟩
    [([], [7])] [] [9] [[0, 0, 0, 0, 0, 0, 0, 0, 0, 0, 0, 0, 0, 7]]
    ⟨refAead, ⟨[0, 0, 0, 0, 0, 0, 0, 0, 0, 0, 0, 1, 0], 1⟩⟩ rfl rfl rfl

/-- Witness for C2 after two advances from an all-zero 8-byte prefix. -/
theorem nonce_progression_witness :
    (⟨[0, 0, 0, 0, 0, 0, 0, 0, 0, 0, 0, 2, 0], 2⟩ : NonceEncoder32).as_slice
      = List.replicate 8 0 ++ be32 2 ++ [0]
    ∧ (⟨[0, 0, 0, 0, 0, 0, 0, 0, 0, 0, 0, 2, 0], 2⟩ : NonceEncoder32).finish
      = List.replicate 8 0 ++ be32 2 ++ [1] :=
  nonce_progression (List.replicate 8 0)
    ⟨List.replicate 8 0 ++ List.replicate 5 0, 0⟩
    ⟨[0, 0, 0, 0, 0, 0, 0, 0, 0, 0, 0, 2, 0], 2⟩ 2 rfl rfl

/-- Witness for C3 at the reference AEAD with two fresh all-zero sequencers:
the interior ciphertext of `[7]` is rejected by `decrypt_last`, and the final
ciphertext of `[7]` is rejected by `decrypt_next`. -/
theorem terminal_binding_witness :
    Decryptor.decrypt_last ⟨refAead, ⟨List.replicate 13 0, 0⟩⟩ []
        [0, 0, 0, 0, 0, 0, 0, 0, 0, 0, 0, 0, 0, 7]
      = none
    ∧ Decryptor.decrypt_next ⟨refAead, ⟨List.replicate 13 0, 0⟩⟩ []
        (Encryptor.encrypt_last ⟨refAead, ⟨List.replicate 13 0, 0⟩⟩ [] [7])
      = some (⟨refAead, ⟨List.replicate 13 0, 0⟩⟩, Except.error ()) :=
  have h := terminal_binding refAead refAead_nonceStrict
    ⟨List.replicate 13 0, 0⟩ ⟨List.replicate 13 0, 0⟩ [] [7] rfl rfl rfl rfl
  ⟨h.1 [0, 0, 0, 0, 0, 0, 0, 0, 0, 0, 0, 0, 0, 7]
    ⟨refAead, ⟨[0, 0, 0, 0, 0, 0, 0, 0, 0, 0, 0, 1, 0], 1⟩⟩ rfl, h.2⟩

/-- Witness for C4: a sequencer at counter `2^32 − 1` fails to increment, and
a fresh sequencer fails on its `2^32`-th advance. -/
theorem counter_overflow_guard_witness :
    (⟨List.replicate 13 0, 2 ^ 32 - 1⟩ : NonceEncoder32).increment = none
    ∧ (⟨List.replicate 8 0 ++ List.replicate 5 0, 0⟩ : NonceEncoder32).advanceN (2 ^ 32)
      = none :=
  ⟨counter_overflow_guard.1 ⟨List.replicate 13 0, 2 ^ 32 - 1⟩ rfl,
   counter_overflow_guard.2 (List.replicate 8 0)
     ⟨List.replicate 8 0 ++ List.replicate 5 0, 0⟩ rfl⟩

/-- Witness for C5: the `encrypt_last` transition starts from an active
state, never from a consumed one. -/
theorem consumed_no_further_ops_witness :
    StreamState.activeEnc ⟨refAead, ⟨List.replicate 13 0, 0⟩⟩
      ≠ StreamState.consumed :=
  consumed_no_further_ops _ _
    (StreamStep.encLast ⟨refAead, ⟨List.replicate 13 0, 0⟩⟩ [] [])

/-- Witness for C6 at the reference AEAD: a garbage ciphertext `[5]` fails
and leaves the decryptor untouched; the genuine ciphertext advances the
sequencer by exactly one increment. -/
theorem decrypt_next_advance_iff_witness :
    Decryptor.decrypt_next ⟨refAead, ⟨List.replicate 13 0, 0⟩⟩ [] [5]
      = some (⟨refAead, ⟨List.replicate 13 0, 0⟩⟩, Except.error ())
    ∧ ((⟨refAead, ⟨List.replicate 13 0, 0⟩⟩ : Decryptor).nonce.increment
        = some (⟨refAead, ⟨[0, 0, 0, 0, 0, 0, 0, 0, 0, 0, 0, 1, 0], 1⟩⟩ : Decryptor).nonce
       ∧ (⟨refAead, ⟨[0, 0, 0, 0, 0, 0, 0, 0, 0, 0, 0, 1, 0], 1⟩⟩ : Decryptor).alg
        = (⟨refAead, ⟨List.replicate 13 0, 0⟩⟩ : Decryptor).alg) :=
  have h := decrypt_next_advance_iff ⟨refAead, ⟨List.replicate 13 0, 0⟩⟩ [] [5]
  have h2 := decrypt_next_advance_iff ⟨refAead, ⟨List.replicate 13 0, 0⟩⟩ []
    (List.replicate 13 0 ++ [9])
  have hstep : Decryptor.decrypt_next ⟨refAead, ⟨List.replicate 13 0, 0⟩⟩ []
      (List.replicate 13 0 ++ [9])
    = some (⟨refAead, ⟨[0, 0, 0, 0, 0, 0, 0, 0, 0, 0, 0, 1, 0], 1⟩⟩, Except.ok [9]) := rfl
  ⟨h.1 rfl,
   h2.2.2 ⟨refAead, ⟨[0, 0, 0, 0, 0, 0, 0, 0, 0, 0, 0, 1, 0], 1⟩⟩ [9] hstep⟩

/-- Witness for C7: an all-zero 8-byte prefix constructs successfully with
counter 0, terminal byte 0 and the prefix in place. -/
theorem construction_length_check_witness :
    (NonceEncoder32.new (List.replicate 8 0)).isSome
    ∧ ((⟨List.replicate 8 0 ++ List.replicate 5 0, 0⟩ : NonceEncoder32).counter = 0
       ∧ (⟨List.replicate 8 0 ++ List.replicate 5 0, 0⟩ : NonceEncoder32).value.getD
           (NONCE_SIZE + 4) 0 = 0
       ∧ (⟨List.replicate 8 0 ++ List.replicate 5 0, 0⟩ : NonceEncoder32).value.take
           NONCE_SIZE = List.replicate 8 0) :=
  ⟨(construction_length_check refAead (List.replicate 8 0)).1.mpr rfl,
   (construction_length_check refAead (List.replicate 8 0)).2.2.2
     ⟨List.replicate 8 0 ++ List.replicate 5 0, 0⟩ rfl⟩

/-- Witness for C8 after one advance from an all-zero 8-byte prefix, with the
next increment taken as the concrete frame instance. -/
theorem pfx_immutable_witness :
    (⟨[0, 0, 0, 0, 0, 0, 0, 0, 0, 0, 0, 1, 0], 1⟩ : NonceEncoder32).value.take NONCE_SIZE
      = List.replicate 8 0
    ∧ (⟨[0, 0, 0, 0, 0, 0, 0, 0, 0, 0, 0, 1, 0], 1⟩ : NonceEncoder32).finish.take NONCE_SIZE
      = List.replicate 8 0
    ∧ ((⟨[0, 0, 0, 0, 0, 0, 0, 0, 0, 0, 0, 2, 0], 2⟩ : NonceEncoder32).value.take NONCE_SIZE
        = (⟨[0, 0, 0, 0, 0, 0, 0, 0, 0, 0, 0, 1, 0], 1⟩ : NonceEncoder32).value.take NONCE_SIZE
       ∧ (⟨[0, 0, 0, 0, 0, 0, 0, 0, 0, 0, 0, 2, 0], 2⟩ : NonceEncoder32).value.drop (NONCE_SIZE + 4)
        = (⟨[0, 0, 0, 0, 0, 0, 0, 0, 0, 0, 0, 1, 0], 1⟩ : NonceEncoder32).value.drop (NONCE_SIZE + 4))
    ∧ (⟨[0, 0, 0, 0, 0, 0, 0, 0, 0, 0, 0, 1, 0], 1⟩ : NonceEncoder32).finish.take (NONCE_SIZE + 4)
      = (⟨[0, 0, 0, 0, 0, 0, 0, 0, 0, 0, 0, 1, 0], 1⟩ : NonceEncoder32).value.take (NONCE_SIZE + 4) :=
  have h := pfx_immutable (List.replicate 8 0)
    ⟨List.replicate 8 0 ++ List.replicate 5 0, 0⟩
    ⟨[0, 0, 0, 0, 0, 0, 0, 0, 0, 0, 0, 1, 0], 1⟩ 1 rfl rfl
  ⟨h.1, h.2.1, h.2.2.1 ⟨[0, 0, 0, 0, 0, 0, 0, 0, 0, 0, 0, 2, 0], 2⟩ rfl, h.2.2.2⟩

/-- Witness for C9: an encryptor whose counter sits at `2^32 − 1` still
overwrites the buffer before the fatal overflow. -/
theorem overflow_after_encrypt_witness :
    Encryptor.encrypt_next_in_place ⟨refAead, ⟨List.replicate 13 0, 2 ^ 32 - 1⟩⟩ [] [3]
      = (refAead.encrypt (List.replicate 13 0) [] [3], none)
    ∧ Encryptor.encrypt_next ⟨refAead, ⟨List.replicate 13 0, 2 ^ 32 - 1⟩⟩ [] [4] = none :=
  overflow_after_encrypt ⟨refAead, ⟨List.replicate 13 0, 2 ^ 32 - 1⟩⟩ [] [3] [4] rfl

/-- Witness for C10 after one advance from an all-zero 8-byte prefix. -/
theorem value_counter_sync_witness :
    (⟨[0, 0, 0, 0, 0, 0, 0, 0, 0, 0, 0, 1, 0], 1⟩ : NonceEncoder32).counter = 1
    ∧ ((⟨[0, 0, 0, 0, 0, 0, 0, 0, 0, 0, 0, 1, 0], 1⟩ : NonceEncoder32).value.drop
        NONCE_SIZE).take 4
      = be32 (⟨[0, 0, 0, 0, 0, 0, 0, 0, 0, 0, 0, 1, 0], 1⟩ : NonceEncoder32).counter
    ∧ (⟨[0, 0, 0, 0, 0, 0, 0, 0, 0, 0, 0, 1, 0], 1⟩ : NonceEncoder32).value.getD
        (NONCE_SIZE + 4) 0 = 0
    ∧ (⟨[0, 0, 0, 0, 0, 0, 0, 0, 0, 0, 0, 1, 0], 1⟩ : NonceEncoder32).as_slice
      = List.replicate 8 0
        ++ be32 (⟨[0, 0, 0, 0, 0, 0, 0, 0, 0, 0, 0, 1, 0], 1⟩ : NonceEncoder32).counter
        ++ [0] :=
  value_counter_sync (List.replicate 8 0)
    ⟨List.replicate 8 0 ++ List.replicate 5 0, 0⟩
    ⟨[0, 0, 0, 0, 0, 0, 0, 0, 0, 0, 0, 1, 0], 1⟩ 1 rfl rfl
